import Mathlib

/-!
Verification of the batch-packing pipeline in `concatanatePDF.py`
(`collate_pdfs`, `_write_batch`).

The pipeline is shallowly embedded: each candidate PDF is a record of the
outcomes the Python code observes for it (whether `PdfReader(path)` opens,
whether the document reports itself encrypted, whether `len(reader.pages)`
succeeds, and the result of `os.path.getsize` as an `Option Nat`, `none`
modelling an `OSError`).  Writing a batch to disk is modelled by a predicate
`writeOk : Nat → Bool` on the 1-based batch index, `false` meaning the
serialize/write of that batch raises.  `collate_pdfs` returns the list of
batches successfully written to disk (the side-effect trace of
`_write_batch` calls that succeeded) together with either the result
dictionary or the error that unwound out of the function.
-/

/-- One candidate file, carrying the per-document outcomes the Python code
observes: `openOk` is whether `PdfReader(path)` succeeds, `encrypted` is
`reader.is_encrypted`, `probeOk` is whether `len(reader.pages)` succeeds
(consulted only for encrypted documents), and `size` is the result of
`os.path.getsize` (`none` = `OSError`). -/
structure Candidate where
  name : String
  openOk : Bool
  encrypted : Bool
  probeOk : Bool
  size : Option Nat
deriving DecidableEq, Repr

/-- Phase 1 per-candidate test (`concatanatePDF.py` lines 72-81): a file is
locked/corrupt when opening fails, or when it opens, reports itself
encrypted, and the page-count probe fails. -/
def is_locked (c : Candidate) : Bool :=
  if c.openOk then
    if c.encrypted then !c.probeOk else false
  else true

/-- Phase 1 scan loop (lines 69-87): partition the files, in order, into
`valid_files` and `excluded_files`. -/
def scanLoop : List Candidate → List Candidate × List Candidate
  | [] => ([], [])
  | c :: rest =>
    let ve := scanLoop rest
    if is_locked c then (ve.1, c :: ve.2) else (c :: ve.1, ve.2)

/-- Lexicographic `≤` on strings as lists of Unicode code points — the
order the Python list sort uses on strings. -/
def nameLe : List Char → List Char → Bool
  | [], _ => true
  | _ :: _, [] => false
  | a :: as, b :: bs =>
    if a.toNat < b.toNat then true
    else if b.toNat < a.toNat then false
    else nameLe as bs

/-- The sort on line 59: stable lexicographic sort by filename, modelled
as a stable insertion sort on the `≤` order of names. -/
def sortFiles (files : List Candidate) : List Candidate :=
  files.insertionSort (fun a b => nameLe a.name.data b.name.data = true)

/-- State of the Phase 2 packing loop (lines 105-131), extended with the
trace `written` of batches flushed to disk so far, as `(index, batch)`
pairs. -/
structure PackState where
  current_batch : List Candidate
  current_batch_size : Nat
  batch_index : Nat
  written : List (Nat × List Candidate)
deriving DecidableEq, Repr

def initState : PackState := ⟨[], 0, 1, []⟩

/-- Phase 2 packing loop (lines 110-128).  A `none` size is the `OSError`
branch: log and `continue`.  When the current batch is non-empty and would
overflow the target, `_write_batch` is attempted: on success the batch is
recorded and the state reset, on failure the exception unwinds — the loop
stops and the error is reported (the Python code does not catch it). -/
def packLoop (writeOk : Nat → Bool) (target : Nat) :
    List Candidate → PackState → PackState × Option String
  | [], st => (st, none)
  | c :: rest, st =>
    match c.size with
    | none => packLoop writeOk target rest st
    | some sz =>
      if st.current_batch ≠ [] ∧ target < st.current_batch_size + sz then
        if writeOk st.batch_index then
          packLoop writeOk target rest
            ⟨[c], sz, st.batch_index + 1,
              st.written ++ [(st.batch_index, st.current_batch)]⟩
        else (st, some "write failed")
      else
        packLoop writeOk target rest
          ⟨st.current_batch ++ [c], st.current_batch_size + sz,
            st.batch_index, st.written⟩

/-- The dictionary returned by `collate_pdfs` (lines 133-138). -/
structure RunResult where
  processed : Nat
  skipped : Nat
  skipped_files : List String
  batches : Nat
deriving DecidableEq, Repr

/-- `collate_pdfs` (lines 50-138).  Directory scanning is abstracted: the
argument is the list of `.pdf` candidates found by `os.listdir`, in
directory order; the function sorts them, classifies them, raises if there
is nothing to pack, and runs the packing loop with a final flush.  The
first component is the trace of batches successfully written to disk; the
second is either the result dictionary or the `ValueError`/write exception
that unwound to the caller. -/
def collate_pdfs (writeOk : Nat → Bool) (target : Nat) (files : List Candidate) :
    List (Nat × List Candidate) × Except String RunResult :=
  let all := sortFiles files
  if all.isEmpty then
    ([], .error "No PDF files found in source directory.")
  else
    let ve := scanLoop all
    if ve.1.isEmpty then
      ([], .error "All files were excluded (locked or corrupt).")
    else
      let pr := packLoop writeOk target ve.1 initState
      match pr.2 with
      | some e => (pr.1.written, .error e)
      | none =>
        if pr.1.current_batch.isEmpty then
          (pr.1.written,
            .ok ⟨ve.1.length, ve.2.length, ve.2.map Candidate.name, pr.1.batch_index⟩)
        else if writeOk pr.1.batch_index then
          (pr.1.written ++ [(pr.1.batch_index, pr.1.current_batch)],
            .ok ⟨ve.1.length, ve.2.length, ve.2.map Candidate.name, pr.1.batch_index⟩)
        else
          (pr.1.written, .error "write failed")

/-- Disk behaviour in which every `_write_batch` call succeeds. -/
def allOk : Nat → Bool := fun _ => true

/-- Total byte size of a batch (the sum the loop accumulates in
`current_batch_size`). -/
def bundleSize (b : List Candidate) : Nat :=
  (b.map (fun c => c.size.getD 0)).sum

/-- A plain usable candidate of a given name and byte size: it opens, is
not encrypted, and its size probe succeeds. -/
def mkC (n : String) (sz : Nat) : Candidate := ⟨n, true, false, true, some sz⟩

/-- A batch as it sits on disk is well formed: it is non-empty, every
member had a successful size probe, and if it holds two or more candidates
its total size respects the target. -/
def goodBundle (target : Nat) (b : List Candidate) : Prop :=
  b ≠ [] ∧ (∀ c ∈ b, c.size.isSome = true) ∧ (2 ≤ b.length → bundleSize b ≤ target)

/-- Invariant of the packing-loop state. -/
structure StInv (target : Nat) (st : PackState) : Prop where
  size_eq : st.current_batch_size = bundleSize st.current_batch
  sizes_some : ∀ c ∈ st.current_batch, c.size.isSome = true
  small : 2 ≤ st.current_batch.length → st.current_batch_size ≤ target
  written_good : ∀ p ∈ st.written, goodBundle target p.2
  idx_eq : st.batch_index = st.written.length + 1

/-- All candidates the packing state has consumed, in order: flushed
batches first, then the open batch. -/
def flatTrace (st : PackState) : List Candidate :=
  (st.written.map Prod.snd).flatten ++ st.current_batch

/-- Disk behaviour in which the write of the second batch raises. -/
def failSecondWrite : Nat → Bool := fun i => decide (i ≠ 2)

theorem StInv.init (target : Nat) : StInv target initState :=
  ⟨rfl, by simp [initState], by simp [initState], by simp [initState], rfl⟩

theorem bundleSize_append (a b : List Candidate) :
    bundleSize (a ++ b) = bundleSize a + bundleSize b := by
  simp [bundleSize]

theorem bundleSize_cons (c : Candidate) (b : List Candidate) :
    bundleSize (c :: b) = c.size.getD 0 + bundleSize b := by
  simp [bundleSize]

theorem scanLoop_eq_filter (files : List Candidate) :
    scanLoop files =
      (files.filter (fun c => !(is_locked c)), files.filter is_locked) := by
  induction files with
  | nil => rfl
  | cons c rest ih =>
    by_cases hc : is_locked c <;> simp [scanLoop, ih, List.filter, hc]

theorem scanLoop_length (files : List Candidate) :
    (scanLoop files).1.length + (scanLoop files).2.length = files.length := by
  induction files with
  | nil => rfl
  | cons c rest ih =>
    by_cases hc : is_locked c <;> simp [scanLoop, hc] <;> omega

theorem sortFiles_perm (files : List Candidate) : (sortFiles files).Perm files :=
  List.perm_insertionSort _ _

theorem mem_scanLoop_valid {c : Candidate} {files : List Candidate}
    (h : c ∈ (scanLoop files).1) : c ∈ files := by
  rw [scanLoop_eq_filter] at h
  exact List.mem_of_mem_filter h

theorem packLoop_inv (writeOk : Nat → Bool) (target : Nat) (files : List Candidate) :
    ∀ st st', StInv target st → packLoop writeOk target files st = (st', none) →
      StInv target st' := by
  induction files with
  | nil =>
    intro st st' hinv h
    simp only [packLoop, Prod.mk.injEq] at h
    exact h.1 ▸ hinv
  | cons c rest ih =>
    intro st st' hinv h
    cases hsz : c.size with
    | none =>
      rw [packLoop, hsz] at h
      exact ih _ _ hinv h
    | some sz =>
      rw [packLoop, hsz] at h
      simp only at h
      split at h
      · rename_i hcond
        split at h
        · rename_i hw
          refine ih _ _ ?_ h
          refine ⟨?_, ?_, ?_, ?_, ?_⟩
          · simp [bundleSize, hsz]
          · intro x hx
            simp only [List.mem_singleton] at hx
            simp [hx, hsz]
          · simp
          · intro p hp
            rcases List.mem_append.1 hp with hp | hp
            · exact hinv.written_good p hp
            · simp only [List.mem_singleton] at hp
              subst hp
              exact ⟨hcond.1, hinv.sizes_some,
                fun h2 => hinv.size_eq ▸ hinv.small h2⟩
          · simp [hinv.idx_eq]
        · simp at h
      · rename_i hcond
        refine ih _ _ ?_ h
        refine ⟨?_, ?_, ?_, ?_, ?_⟩
        · simp [bundleSize_append, bundleSize, hsz, hinv.size_eq]
        · intro x hx
          rcases List.mem_append.1 hx with hx | hx
          · exact hinv.sizes_some x hx
          · simp only [List.mem_singleton] at hx
            simp [hx, hsz]
        · intro h2
          by_cases hb : st.current_batch = []
          · simp [hb] at h2
          · have hnlt : ¬ target < st.current_batch_size + sz :=
              fun hlt => hcond ⟨hb, hlt⟩
            show st.current_batch_size + sz ≤ target
            omega
        · exact hinv.written_good
        · exact hinv.idx_eq

theorem packLoop_flat (writeOk : Nat → Bool) (target : Nat) (files : List Candidate) :
    ∀ st st', (∀ c ∈ files, c.size.isSome = true) →
      packLoop writeOk target files st = (st', none) →
      flatTrace st' = flatTrace st ++ files := by
  induction files with
  | nil =>
    intro st st' _ h
    simp only [packLoop, Prod.mk.injEq] at h
    simp [h.1]
  | cons c rest ih =>
    intro st st' hall h
    cases hsz : c.size with
    | none =>
      have : c.size.isSome = true := hall c (by simp)
      rw [hsz] at this
      simp at this
    | some sz =>
      have hrest : ∀ x ∈ rest, x.size.isSome = true :=
        fun x hx => hall x (by simp [hx])
      rw [packLoop, hsz] at h
      simp only at h
      split at h
      · split at h
        · have := ih _ _ hrest h
          rw [this]
          simp [flatTrace]
        · simp at h
      · have := ih _ _ hrest h
        rw [this]
        simp [flatTrace]

theorem packLoop_ne (writeOk : Nat → Bool) (target : Nat) (files : List Candidate) :
    ∀ st st', packLoop writeOk target files st = (st', none) →
      (st.current_batch ≠ [] ∨ ∃ c ∈ files, c.size.isSome = true) →
      st'.current_batch ≠ [] := by
  induction files with
  | nil =>
    intro st st' h hor
    simp only [packLoop, Prod.mk.injEq] at h
    rcases hor with hor | hor
    · exact h.1 ▸ hor
    · simp at hor
  | cons c rest ih =>
    intro st st' h hor
    cases hsz : c.size with
    | none =>
      rw [packLoop, hsz] at h
      refine ih _ _ h ?_
      rcases hor with hor | hor
      · exact Or.inl hor
      · rcases hor with ⟨x, hx, hsome⟩
        rcases List.mem_cons.1 hx with rfl | hx
        · rw [hsz] at hsome; simp at hsome
        · exact Or.inr ⟨x, hx, hsome⟩
    | some sz =>
      rw [packLoop, hsz] at h
      simp only at h
      split at h
      · split at h
        · exact ih _ _ h (Or.inl (by simp))
        · simp at h
      · exact ih _ _ h (Or.inl (by simp))

theorem packLoop_batchIndex_pos (writeOk : Nat → Bool) (target : Nat)
    (files : List Candidate) :
    ∀ st st', packLoop writeOk target files st = (st', none) →
      st.batch_index ≤ st'.batch_index := by
  induction files with
  | nil =>
    intro st st' h
    simp only [packLoop, Prod.mk.injEq] at h
    exact h.1 ▸ Nat.le_refl _
  | cons c rest ih =>
    intro st st' h
    cases hsz : c.size with
    | none =>
      rw [packLoop, hsz] at h
      exact ih _ _ h
    | some sz =>
      rw [packLoop, hsz] at h
      simp only at h
      split at h
      · split at h
        · have hle := ih _ _ h
          exact Nat.le_trans (Nat.le_succ _) hle
        · simp at h
      · have hle := ih _ _ h
        exact hle

theorem collate_ok_spec (writeOk : Nat → Bool) (target : Nat) (files : List Candidate)
    (bs : List (Nat × List Candidate)) (r : RunResult)
    (h : collate_pdfs writeOk target files = (bs, .ok r)) :
    ∃ st,
      packLoop writeOk target (scanLoop (sortFiles files)).1 initState = (st, none) ∧
      r = ⟨(scanLoop (sortFiles files)).1.length, (scanLoop (sortFiles files)).2.length,
        (scanLoop (sortFiles files)).2.map Candidate.name, st.batch_index⟩ ∧
      ((st.current_batch = [] ∧ bs = st.written) ∨
        (st.current_batch ≠ [] ∧ writeOk st.batch_index = true ∧
          bs = st.written ++ [(st.batch_index, st.current_batch)])) := by
  rw [collate_pdfs] at h
  simp only at h
  split at h
  · simp at h
  · split at h
    · simp at h
    · split at h
      · simp at h
      · rename_i heq
        refine ⟨(packLoop writeOk target (scanLoop (sortFiles files)).1 initState).1,
          ?_, ?_, ?_⟩
        · rw [← heq]
        · split at h
          · rw [Prod.mk.injEq] at h
            have := h.2
            simp only [Except.ok.injEq] at this
            exact this.symm
          · split at h
            · rw [Prod.mk.injEq] at h
              have := h.2
              simp only [Except.ok.injEq] at this
              exact this.symm
            · simp at h
        · split at h
          · rename_i hemp
            refine Or.inl ⟨List.isEmpty_iff.1 hemp, ?_⟩
            rw [Prod.mk.injEq] at h
            exact h.1.symm
          · split at h
            · rename_i hemp hw
              refine Or.inr ⟨fun hc => hemp (by simp [hc]), hw, ?_⟩
              rw [Prod.mk.injEq] at h
              exact h.1.symm
            · simp at h

theorem collate_bundles_good (writeOk : Nat → Bool) (target : Nat)
    (files : List Candidate) (bs : List (Nat × List Candidate)) (r : RunResult)
    (h : collate_pdfs writeOk target files = (bs, .ok r)) :
    ∀ p ∈ bs, goodBundle target p.2 := by
  obtain ⟨st, hpack, hr, hcase⟩ := collate_ok_spec _ _ _ _ _ h
  have hinv := packLoop_inv _ _ _ _ _ (StInv.init target) hpack
  rcases hcase with ⟨hemp, rfl⟩ | ⟨hne, hw, rfl⟩
  · exact hinv.written_good
  · intro p hp
    rcases List.mem_append.1 hp with hp | hp
    · exact hinv.written_good p hp
    · simp only [List.mem_singleton] at hp
      subst hp
      exact ⟨hne, hinv.sizes_some, fun h2 => hinv.size_eq ▸ hinv.small h2⟩

theorem goodBundle_oversized {target : Nat} {b : List Candidate}
    (hg : goodBundle target b) {c : Candidate} (hc : c ∈ b) {s : Nat}
    (hs : c.size = some s) (hgt : target < s) : b = [c] := by
  obtain ⟨hne, _, hsmall⟩ := hg
  by_cases hlen : 2 ≤ b.length
  · exfalso
    have hle : c.size.getD 0 ≤ bundleSize b :=
      List.single_le_sum (fun x _ => Nat.zero_le x) _ (List.mem_map_of_mem _ hc)
    rw [hs] at hle
    have := hsmall hlen
    simp only [Option.getD_some] at hle
    omega
  · have hpos : 0 < b.length := List.length_pos.2 hne
    have h1 : b.length = 1 := by omega
    obtain ⟨a, rfl⟩ := List.length_eq_one.1 h1
    simp only [List.mem_singleton] at hc
    rw [hc]

/-- C1: in every run of the packer with a positive target, every bundle
written to disk that contains two or more candidates has total byte size
at most `target`; the cumulative size may exceed the target only in a
bundle holding exactly one candidate. -/
theorem collate_bundle_size_le_target (writeOk : Nat → Bool) (target : Nat)
    (files : List Candidate) (bs : List (Nat × List Candidate)) (r : RunResult)
    (_ht : 0 < target) (h : collate_pdfs writeOk target files = (bs, .ok r)) :
    ∀ p ∈ bs, 2 ≤ p.2.length → bundleSize p.2 ≤ target :=
  fun p hp => (collate_bundles_good writeOk target files bs r h p hp).2.2

theorem collate_bundle_size_le_target_witness :
    (0 : Nat) < 80 ∧
    collate_pdfs allOk 80 [mkC "a" 50] = ([(1, [mkC "a" 50])], .ok ⟨1, 0, [], 1⟩) ∧
    ∀ p ∈ [(1, [mkC "a" 50])], 2 ≤ p.2.length → bundleSize p.2 ≤ 80 :=
  ⟨by decide, rfl,
    collate_bundle_size_le_target allOk 80 [mkC "a" 50] [(1, [mkC "a" 50])]
      ⟨1, 0, [], 1⟩ (by decide) rfl⟩

/-- C2: for a successful run with a positive target in which the size
probe succeeds for every candidate, the concatenation of the written
bundles, in bundle order, is exactly the usable (valid) file sequence: no
duplication, no omission, original order preserved. -/
theorem collate_partition_exact (writeOk : Nat → Bool) (target : Nat)
    (files : List Candidate) (bs : List (Nat × List Candidate)) (r : RunResult)
    (_ht : 0 < target) (hsz : ∀ c ∈ files, c.size.isSome = true)
    (h : collate_pdfs writeOk target files = (bs, .ok r)) :
    (bs.map Prod.snd).flatten = (scanLoop (sortFiles files)).1 := by
  obtain ⟨st, hpack, hr, hcase⟩ := collate_ok_spec _ _ _ _ _ h
  have hval : ∀ c ∈ (scanLoop (sortFiles files)).1, c.size.isSome = true := fun c hc =>
    hsz c ((sortFiles_perm files).mem_iff.1 (mem_scanLoop_valid hc))
  have hflat := packLoop_flat _ _ _ _ _ hval hpack
  have hst : flatTrace st = (scanLoop (sortFiles files)).1 := by
    rw [hflat]; simp [flatTrace, initState]
  rcases hcase with ⟨hemp, rfl⟩ | ⟨hne, hw, rfl⟩
  · rw [← hst]; simp [flatTrace, hemp]
  · rw [← hst]; simp [flatTrace]

theorem collate_partition_exact_witness :
    (0 : Nat) < 80 ∧
    (∀ c ∈ [mkC "a" 50, mkC "b" 60], c.size.isSome = true) ∧
    collate_pdfs allOk 80 [mkC "a" 50, mkC "b" 60] =
      ([(1, [mkC "a" 50]), (2, [mkC "b" 60])], .ok ⟨2, 0, [], 2⟩) ∧
    ([(1, [mkC "a" 50]), (2, [mkC "b" 60])].map Prod.snd).flatten =
      (scanLoop (sortFiles [mkC "a" 50, mkC "b" 60])).1 :=
  ⟨by decide, by decide, rfl,
    collate_partition_exact allOk 80 [mkC "a" 50, mkC "b" 60]
      [(1, [mkC "a" 50]), (2, [mkC "b" 60])] ⟨2, 0, [], 2⟩ (by decide) (by decide) rfl⟩

/-- C9: in every successful run, a usable candidate whose probed size
strictly exceeds the target sits alone in its bundle (no other candidate
shares it), and since every written bundle is non-empty, the next packed
candidate necessarily begins the following, fresh bundle. -/
theorem collate_oversized_alone (writeOk : Nat → Bool) (target : Nat)
    (files : List Candidate) (bs : List (Nat × List Candidate)) (r : RunResult)
    (h : collate_pdfs writeOk target files = (bs, .ok r)) :
    (∀ p ∈ bs, ∀ c ∈ p.2, ∀ s : Nat, c.size = some s → target < s → p.2 = [c]) ∧
    (∀ p ∈ bs, p.2 ≠ []) := by
  have hg := collate_bundles_good writeOk target files bs r h
  exact ⟨fun p hp c hc s hs hgt => goodBundle_oversized (hg p hp) hc hs hgt,
    fun p hp => (hg p hp).1⟩

theorem collate_oversized_alone_witness :
    collate_pdfs allOk 80 [mkC "a" 100] = ([(1, [mkC "a" 100])], .ok ⟨1, 0, [], 1⟩) ∧
    ((∀ p ∈ [(1, [mkC "a" 100])], ∀ c ∈ p.2, ∀ s : Nat,
        c.size = some s → 80 < s → p.2 = [c]) ∧
      (∀ p ∈ [(1, [mkC "a" 100])], p.2 ≠ [])) :=
  ⟨rfl, collate_oversized_alone allOk 80 [mkC "a" 100] [(1, [mkC "a" 100])]
    ⟨1, 0, [], 1⟩ rfl⟩

/-- C4: classification follows the three-step rule — a candidate is
excluded exactly when opening fails, or when it opens, reports itself
encrypted, and the page-count probe fails; in every other case it is
usable.  The scan is a total function that classifies every candidate
into exactly one of the two lists, so a per-document failure never aborts
it. -/
theorem classification_rule (files : List Candidate) :
    scanLoop files =
      (files.filter (fun c => !(is_locked c)), files.filter is_locked) ∧
    ∀ c : Candidate, is_locked c = true ↔
      (c.openOk = false ∨ (c.openOk = true ∧ c.encrypted = true ∧ c.probeOk = false)) := by
  refine ⟨scanLoop_eq_filter files, ?_⟩
  intro c
  rcases c with ⟨n, o, e, p, s⟩
  cases o <;> cases e <;> cases p <;> simp [is_locked]

/-- C5: with an empty candidate set, or with every candidate classified as
excluded, `collate_pdfs` raises a `ValueError` to its caller and writes
zero bundles. -/
theorem collate_nothing_to_pack_raises (writeOk : Nat → Bool) (target : Nat)
    (files : List Candidate)
    (h : files = [] ∨ (scanLoop (sortFiles files)).1 = []) :
    (collate_pdfs writeOk target files).1 = [] ∧
      ∃ e, (collate_pdfs writeOk target files).2 = .error e := by
  rw [collate_pdfs]
  simp only
  split
  · exact ⟨rfl, "No PDF files found in source directory.", rfl⟩
  · rename_i hne
    rcases h with rfl | hve
    · exact absurd (by simp [sortFiles, List.insertionSort]) hne
    · split
      · exact ⟨rfl, "All files were excluded (locked or corrupt).", rfl⟩
      · rename_i hvne
        rw [hve] at hvne
        simp at hvne

theorem collate_nothing_to_pack_raises_witness :
    (([] : List Candidate) = [] ∨ (scanLoop (sortFiles ([] : List Candidate))).1 = []) ∧
    ((collate_pdfs allOk 80 ([] : List Candidate)).1 = [] ∧
      ∃ e, (collate_pdfs allOk 80 ([] : List Candidate)).2 = .error e) :=
  ⟨Or.inl rfl, collate_nothing_to_pack_raises allOk 80 [] (Or.inl rfl)⟩

/-- C6 (counterexample): a run in which the single usable candidate has a
failing size probe succeeds, writes zero bundles, yet reports
`batches = 1` — the reported bundle count differs from the number of
bundles actually produced. -/
theorem collate_batches_overcount :
    collate_pdfs allOk 80 [⟨"a", true, false, true, none⟩] =
      ([], .ok ⟨1, 0, [], 1⟩) := rfl

/-- C6 (amended): in every successful run in which at least one usable
candidate has a successful size probe, the reported `batches` count
equals the number of bundles written to disk; otherwise the report says
one batch while zero were produced. -/
theorem collate_batches_eq_written (writeOk : Nat → Bool) (target : Nat)
    (files : List Candidate) (bs : List (Nat × List Candidate)) (r : RunResult)
    (h : collate_pdfs writeOk target files = (bs, .ok r))
    (hx : ∃ c ∈ (scanLoop (sortFiles files)).1, c.size.isSome = true) :
    r.batches = bs.length := by
  obtain ⟨st, hpack, hr, hcase⟩ := collate_ok_spec _ _ _ _ _ h
  have hinv := packLoop_inv _ _ _ _ _ (StInv.init target) hpack
  have hne : st.current_batch ≠ [] := packLoop_ne _ _ _ _ _ hpack (Or.inr hx)
  rcases hcase with ⟨hemp, _⟩ | ⟨_, _, rfl⟩
  · exact absurd hemp hne
  · subst hr
    simp [hinv.idx_eq]

theorem collate_batches_eq_written_witness :
    collate_pdfs allOk 80 [mkC "a" 50] = ([(1, [mkC "a" 50])], .ok ⟨1, 0, [], 1⟩) ∧
    (∃ c ∈ (scanLoop (sortFiles [mkC "a" 50])).1, c.size.isSome = true) ∧
    (⟨1, 0, [], 1⟩ : RunResult).batches = [(1, [mkC "a" 50])].length :=
  ⟨rfl, by decide,
    collate_batches_eq_written allOk 80 [mkC "a" 50] [(1, [mkC "a" 50])]
      ⟨1, 0, [], 1⟩ rfl (by decide)⟩

/-- C7: the spec scenario — five usable candidates A..E of sizes 30MB,
30MB, 30MB, 90MB, 10MB with an 80MB target produce exactly the four
bundles [A,B], [C], [D], [E]. -/
theorem collate_scenario_80MB :
    collate_pdfs allOk (80 * 1048576)
      [mkC "A" (30 * 1048576), mkC "B" (30 * 1048576), mkC "C" (30 * 1048576),
        mkC "D" (90 * 1048576), mkC "E" (10 * 1048576)] =
      ([(1, [mkC "A" (30 * 1048576), mkC "B" (30 * 1048576)]),
        (2, [mkC "C" (30 * 1048576)]),
        (3, [mkC "D" (90 * 1048576)]),
        (4, [mkC "E" (10 * 1048576)])],
        .ok ⟨5, 0, [], 4⟩) := rfl

theorem nameLe_total : ∀ as bs : List Char, nameLe as bs = true ∨ nameLe bs as = true := by
  intro as
  induction as with
  | nil => intro bs; exact Or.inl rfl
  | cons a as ih =>
    intro bs
    cases bs with
    | nil => exact Or.inr rfl
    | cons b bs =>
      rcases Nat.lt_trichotomy a.toNat b.toNat with h | h | h
      · left; simp [nameLe, h]
      · rcases ih bs with hr | hr
        · left; simp [nameLe, h, hr]
        · right; simp [nameLe, h, hr]
      · right; simp [nameLe, h]

theorem nameLe_trans : ∀ as bs cs : List Char,
    nameLe as bs = true → nameLe bs cs = true → nameLe as cs = true := by
  intro as
  induction as with
  | nil => intro bs cs h1 h2; rfl
  | cons a as ih =>
    intro bs cs h1 h2
    cases bs with
    | nil => simp [nameLe] at h1
    | cons b bs =>
      cases cs with
      | nil => simp [nameLe] at h2
      | cons c cs =>
        rcases Nat.lt_trichotomy a.toNat b.toNat with hab | hab | hab
        · rcases Nat.lt_trichotomy b.toNat c.toNat with hbc | hbc | hbc
          · have hac : a.toNat < c.toNat := by omega
            simp [nameLe, hac]
          · have hac : a.toNat < c.toNat := by omega
            simp [nameLe, hac]
          · have hn : ¬ b.toNat < c.toNat := by omega
            simp [nameLe, hn, hbc] at h2
        · rcases Nat.lt_trichotomy b.toNat c.toNat with hbc | hbc | hbc
          · have hac : a.toNat < c.toNat := by omega
            simp [nameLe, hac]
          · have hnab : ¬ a.toNat < b.toNat := by omega
            have hnba : ¬ b.toNat < a.toNat := by omega
            have hnbc : ¬ b.toNat < c.toNat := by omega
            have hncb : ¬ c.toNat < b.toNat := by omega
            have hnac : ¬ a.toNat < c.toNat := by omega
            have hnca : ¬ c.toNat < a.toNat := by omega
            simp [nameLe, hnab, hnba] at h1
            simp [nameLe, hnbc, hncb] at h2
            simp [nameLe, hnac, hnca]
            exact ih bs cs h1 h2
          · have hn : ¬ b.toNat < c.toNat := by omega
            simp [nameLe, hn, hbc] at h2
        · have hn : ¬ a.toNat < b.toNat := by omega
          simp [nameLe, hn, hab] at h1

theorem nameLe_antisymm : ∀ as bs : List Char,
    nameLe as bs = true → nameLe bs as = true → as = bs := by
  intro as
  induction as with
  | nil =>
    intro bs h1 h2
    cases bs with
    | nil => rfl
    | cons b bs => simp [nameLe] at h2
  | cons a as ih =>
    intro bs h1 h2
    cases bs with
    | nil => simp [nameLe] at h1
    | cons b bs =>
      rcases Nat.lt_trichotomy a.toNat b.toNat with h | h | h
      · simp [nameLe, h, Nat.lt_asymm h] at h2
      · have hc : a = b := Char.ext (UInt32.ext h)
        subst hc
        simp [nameLe] at h1 h2
        rw [ih bs h1 h2]
      · simp [nameLe, h, Nat.lt_asymm h] at h1

theorem sortFiles_sorted (files : List Candidate) :
    (sortFiles files).Sorted (fun a b => nameLe a.name.data b.name.data = true) := by
  haveI : IsTotal Candidate (fun a b => nameLe a.name.data b.name.data = true) :=
    ⟨fun a b => nameLe_total _ _⟩
  haveI : IsTrans Candidate (fun a b => nameLe a.name.data b.name.data = true) :=
    ⟨fun _ _ _ h1 h2 => nameLe_trans _ _ _ h1 h2⟩
  exact List.sorted_insertionSort _ files

theorem eq_of_perm_of_sorted_names :
    ∀ l₁ l₂ : List Candidate, l₁.Perm l₂ →
      l₁.Sorted (fun a b => nameLe a.name.data b.name.data = true) →
      l₂.Sorted (fun a b => nameLe a.name.data b.name.data = true) →
      (∀ a ∈ l₁, ∀ b ∈ l₁, a.name = b.name → a = b) →
      l₁ = l₂ := by
  intro l₁
  induction l₁ with
  | nil =>
    intro l₂ hp _ _ _
    exact hp.nil_eq
  | cons a t₁ ih =>
    intro l₂ hp hs₁ hs₂ hinj
    cases l₂ with
    | nil => exact absurd hp.eq_nil (by simp)
    | cons b t₂ =>
      have hmem_a : a ∈ b :: t₂ := hp.mem_iff.1 (by simp)
      have hmem_b : b ∈ a :: t₁ := hp.mem_iff.2 (by simp)
      have hab : a = b := by
        rcases List.mem_cons.1 hmem_a with h1 | h1
        · exact h1
        rcases List.mem_cons.1 hmem_b with h2 | h2
        · exact h2.symm
        have hba : nameLe b.name.data a.name.data = true :=
          (List.sorted_cons.1 hs₂).1 a h1
        have hab2 : nameLe a.name.data b.name.data = true :=
          (List.sorted_cons.1 hs₁).1 b h2
        have hname : a.name = b.name :=
          String.ext (nameLe_antisymm _ _ hab2 hba)
        exact hinj a (by simp) b (by simp [h2]) hname
      subst hab
      have ht : t₁ = t₂ := by
        refine ih t₂ hp.cons_inv (List.sorted_cons.1 hs₁).2 (List.sorted_cons.1 hs₂).2 ?_
        intro x hx y hy hxy
        exact hinj x (by simp [hx]) y (by simp [hy]) hxy
      rw [ht]

theorem sortFiles_eq_of_perm {files1 files2 : List Candidate}
    (hperm : files1.Perm files2)
    (hnames : files1.Pairwise (fun a b => a.name ≠ b.name)) :
    sortFiles files1 = sortFiles files2 := by
  refine eq_of_perm_of_sorted_names _ _
    (((sortFiles_perm files1).trans hperm).trans (sortFiles_perm files2).symm)
    (sortFiles_sorted files1) (sortFiles_sorted files2) ?_
  intro a ha b hb hname
  have ha1 : a ∈ files1 := (sortFiles_perm files1).mem_iff.1 ha
  have hb1 : b ∈ files1 := (sortFiles_perm files1).mem_iff.1 hb
  by_cases hab : a = b
  · exact hab
  · have hsym : Symmetric (fun x y : Candidate => x.name ≠ y.name) :=
      fun x y h heq => h heq.symm
    exact absurd hname (hnames.forall hsym ha1 hb1 hab)

/-- C8: the pipeline is deterministic — two runs over the same unchanged
candidate set (the same files, possibly enumerated by `os.listdir` in a
different order, with filenames pairwise distinct as they are in a
directory) with the same target and disk behaviour yield identical
usable/excluded partitions and identical written bundles: the
lexicographic sort on line 59 canonicalises the candidate order before
classification and packing. -/
theorem collate_deterministic (writeOk : Nat → Bool) (target : Nat)
    (files1 files2 : List Candidate) (hperm : files1.Perm files2)
    (hnames : files1.Pairwise (fun a b => a.name ≠ b.name)) :
    scanLoop (sortFiles files1) = scanLoop (sortFiles files2) ∧
    collate_pdfs writeOk target files1 = collate_pdfs writeOk target files2 := by
  have hs : sortFiles files1 = sortFiles files2 := sortFiles_eq_of_perm hperm hnames
  refine ⟨by rw [hs], ?_⟩
  simp only [collate_pdfs, hs]

theorem collate_deterministic_witness :
    [mkC "b" 60, mkC "a" 50].Perm [mkC "a" 50, mkC "b" 60] ∧
    [mkC "b" 60, mkC "a" 50].Pairwise (fun a b => a.name ≠ b.name) ∧
    (scanLoop (sortFiles [mkC "b" 60, mkC "a" 50]) =
        scanLoop (sortFiles [mkC "a" 50, mkC "b" 60]) ∧
      collate_pdfs allOk 80 [mkC "b" 60, mkC "a" 50] =
        collate_pdfs allOk 80 [mkC "a" 50, mkC "b" 60]) :=
  ⟨List.Perm.swap _ _ _, by decide,
    collate_deterministic allOk 80 [mkC "b" 60, mkC "a" 50] [mkC "a" 50, mkC "b" 60]
      (List.Perm.swap _ _ _) (by decide)⟩

/-- C10: in every successful run the reported `processed` count equals the
number of candidates classified usable (even when some of them were
skipped during packing by a failing size probe and sit in no bundle), the
reported `skipped` count equals the number excluded, and the two sum to
the number of discovered candidates. -/
theorem collate_result_counts (writeOk : Nat → Bool) (target : Nat)
    (files : List Candidate) (bs : List (Nat × List Candidate)) (r : RunResult)
    (h : collate_pdfs writeOk target files = (bs, .ok r)) :
    r.processed = (scanLoop (sortFiles files)).1.length ∧
    r.skipped = (scanLoop (sortFiles files)).2.length ∧
    r.processed + r.skipped = files.length := by
  obtain ⟨st, _, hr, _⟩ := collate_ok_spec _ _ _ _ _ h
  subst hr
  refine ⟨rfl, rfl, ?_⟩
  have hlen := scanLoop_length (sortFiles files)
  have hperm : (sortFiles files).length = files.length := (sortFiles_perm files).length_eq
  show (scanLoop (sortFiles files)).1.length + (scanLoop (sortFiles files)).2.length =
    files.length
  omega

theorem collate_result_counts_witness :
    collate_pdfs allOk 80 [mkC "a" 50, ⟨"b", false, false, false, some 1⟩] =
      ([(1, [mkC "a" 50])], .ok ⟨1, 1, ["b"], 1⟩) ∧
    ((⟨1, 1, ["b"], 1⟩ : RunResult).processed =
        (scanLoop (sortFiles [mkC "a" 50, ⟨"b", false, false, false, some 1⟩])).1.length ∧
      (⟨1, 1, ["b"], 1⟩ : RunResult).skipped =
        (scanLoop (sortFiles [mkC "a" 50, ⟨"b", false, false, false, some 1⟩])).2.length ∧
      (⟨1, 1, ["b"], 1⟩ : RunResult).processed + (⟨1, 1, ["b"], 1⟩ : RunResult).skipped =
        [mkC "a" 50, ⟨"b", false, false, false, some 1⟩].length) :=
  ⟨rfl, collate_result_counts allOk 80 [mkC "a" 50, ⟨"b", false, false, false, some 1⟩]
    [(1, [mkC "a" 50])] ⟨1, 1, ["b"], 1⟩ rfl⟩

/-- C3 (code bug): when the write of the second bundle raises, the
exception unwinds out of the packing loop to the caller — the already
written first bundle survives, but the failure is not recorded as a
per-bundle failure in a result and no later bundle is attempted (here the
candidate `c` is packed into no bundle), contradicting the documented
continue-on-bundle-failure behaviour.  The unused wrapper
`PDFCollatorApp.write_batch` (lines 286-290) implements exactly the
intended recovery, but `collate_pdfs` calls `_write_batch` directly. -/
theorem collate_write_failure_unwinds :
    collate_pdfs failSecondWrite 80 [mkC "a" 50, mkC "b" 60, mkC "c" 70] =
      ([(1, [mkC "a" 50])], .error "write failed") := rfl
